import Mathlib

/-!
Shallow embedding of `builder/builder.py` from the docker-builder repository.

The `Builder` class orchestrates a run: it indexes discovered images, builds a
dependency graph over them, resolves a build order, partitions the resolved
order into local and remote dependencies, and drives pull, build and push
operations over the partitions.

Collaborators that are not part of the embedded source file are handled as
follows: filesystem discovery (`glob` over Dockerfiles together with
`builder.image.Image.index`) is modelled as an input list of image records;
the `Resolver` from `builder.dependency` is taken as a function parameter
(no claim depends on its internals); `Node`, `Graph.create` and the
build/push behaviour of `builder.image.Image` are modelled from the
specification where the source does not define them.  The docker CLI is
modelled as an oracle (`Runtime`) telling which external operations succeed.
-/

set_option maxRecDepth 4000

namespace DockerBuilder

/-- Modelled from the spec: an image record produced by discovery
(`builder.image.Image` is not among the embedded sources): a name plus the
declared dependency names, in declaration order. -/
structure ImageRec where
  name : String
  dependencies : List String
  deriving DecidableEq

/-- Modelled from the spec: `builder.dependency.Node` — one image name plus
its outgoing dependency edges, stored here as the names of the target nodes.
The spec gives `Node` only the attributes `name` and `edges`, so the Python
class has no equality override: comparing a `str` with a `Node` in Python
always yields `False`. -/
structure Node where
  name : String
  edges : List String
  deriving DecidableEq

/-- A Python `dict` with string keys: an association list, insertion ordered,
with unique keys maintained by `dinsert`. -/
abbrev Dict (β : Type) : Type := List (String × β)

/-- The keys of a dict, in insertion order. -/
def dkeys {β : Type} (d : Dict β) : List String := d.map Prod.fst

/-- The values of a dict, in insertion order (Python `d.values()`). -/
def dvalues {β : Type} (d : Dict β) : List β := d.map Prod.snd

/-- Python `k in d` on a dict: key membership. -/
def dcontains {β : Type} : Dict β → String → Bool
  | [], _ => false
  | p :: d, k => if p.1 = k then true else dcontains d k

/-- Python `d[k]` on a dict: `none` models a raised `KeyError`. -/
def dget {β : Type} : Dict β → String → Option β
  | [], _ => none
  | p :: d, k => if p.1 = k then some p.2 else dget d k

/-- Replace the value stored at a present key, keeping its position. -/
def dreplace {β : Type} : Dict β → String → β → Dict β
  | [], _, _ => []
  | p :: d, k, v => if p.1 = k then (k, v) :: dreplace d k v else p :: dreplace d k v

/-- Python `d[k] = v` on a dict: replaces in place when the key exists
(keeping its insertion position), appends a new binding otherwise. -/
def dinsert {β : Type} (d : Dict β) (k : String) (v : β) : Dict β :=
  if dcontains d k then dreplace d k v else d ++ [(k, v)]

/-- `builder.dependency.Graph`: the complete node set plus the name-to-node
lookup `nodes` (insertion ordered). -/
structure Graph where
  nodes : Dict Node
  deriving DecidableEq

/-- Modelled from the spec: `Graph.create(nodes)` builds the insertion-ordered
name-to-node mapping from a complete, pre-linked node list
(`builder.dependency` is not among the embedded sources). -/
def Graph.create (ns : List Node) : Graph :=
  ⟨ns.foldl (fun d n => dinsert d n.name n) []⟩

/-- The external operations `Builder` invokes, in the order it invokes them. -/
inductive Op where
  | pull (name : String)
  | build (name : String)
  | push (name : String) (registry : String)
  deriving DecidableEq

/-- A raised Python exception on the driving path: a `KeyError` from a dict
lookup, or a failed external build/push operation (modelled from the spec:
`Runtime-build` / `Runtime-push` failures propagate as fatal errors). -/
inductive Failure where
  | keyErr (key : String)
  | opFail (op : Op)
  deriving DecidableEq

/-- How a run ends. -/
inductive RunStatus where
  | ok
  | exited (code : Nat)
  | keyError (key : String)
  | opFailed (op : Op)
  deriving DecidableEq

def Failure.toStatus : Failure → RunStatus
  | .keyErr k => .keyError k
  | .opFail o => .opFailed o

/-- The observable result of `Builder.run`: the external operations executed
in order, how the run ended, the constructed graph (if construction was
reached) and the final partition fields. -/
structure RunOutcome where
  trace : List Op
  status : RunStatus
  graph : Option Graph
  local_dependencies : List Node
  remote_dependencies : List Node
  deriving DecidableEq

/-- The parts of `self.config` that `Builder` reads: `config['images']`,
`config['core']['downstream']`, `config['core']['push']` and
`config['registries']`. -/
structure Config where
  images : List String
  downstream : Bool
  push : Bool
  registries : List String
  deriving DecidableEq

/-- The docker CLI as an oracle: which pulls, builds and pushes succeed. -/
structure Runtime where
  pull_ok : String → Bool
  build_ok : String → Bool
  push_ok : String → String → Bool

/-- The mutable state of a `Builder` instance (`__init__`): the config, the
indexed image dict, the graph, and the two accumulated partition fields,
which `__init__` initialises to empty lists. -/
structure Builder where
  config : Config
  images : Dict ImageRec
  graph : Option Graph
  local_dependencies : List Node
  remote_dependencies : List Node

/-- Python `dependency.name == n` where `n` is a `Node` object: `str` and
`Node` are unrelated types and `Node` (modelled from the spec) defines no
custom equality, so the comparison is always `False`. -/
def pyEqStrNode (s : String) (n : Node) : Bool :=
  false

/-- Python `dependency.name in l` / `not in l` where `l` is a list of `Node`
objects: elementwise `==` between a `str` and each `Node`. -/
def pyStrInNodes (s : String) (l : List Node) : Bool :=
  l.any (fun n => pyEqStrNode s n)

/-- One iteration of the loop body of `Builder._split_dependencies`:
`if dependency.name in self.images and dependency.name not in self.local_dependencies:
append to local; elif dependency.name not in self.images and dependency.name
not in self.remote_dependencies: append to remote`. -/
def splitStep (images : Dict ImageRec) (acc : List Node × List Node) (dep : Node) :
    List Node × List Node :=
  if dcontains images dep.name && !(pyStrInNodes dep.name acc.1) then
    (acc.1 ++ [dep], acc.2)
  else if !(dcontains images dep.name) && !(pyStrInNodes dep.name acc.2) then
    (acc.1, acc.2 ++ [dep])
  else
    acc

/-- `Builder._split_dependencies(dependencies)`: folds the loop body over the
resolved node sequence, starting from the current values of the
`local_dependencies` and `remote_dependencies` instance fields. -/
def Builder.split_dependencies (images : Dict ImageRec) (acc : List Node × List Node)
    (deps : List Node) : List Node × List Node :=
  deps.foldl (splitStep images) acc

/-- `Builder._split_dependencies` at the level of the instance state: the
method reads `self.images` and the two partition fields and writes the two
partition fields; no other field is read or written. -/
def Builder.split_state (b : Builder) (deps : List Node) : Builder :=
  let p := Builder.split_dependencies b.images (b.local_dependencies, b.remote_dependencies) deps
  { b with local_dependencies := p.1, remote_dependencies := p.2 }

/-- First loop of `Builder.build_dependency_graph`, dependency part:
`if dependency not in nodes: nodes[dependency] = Node(dependency)`. -/
def depInsert (ns : Dict Node) (dep : String) : Dict Node :=
  if dcontains ns dep then ns else dinsert ns dep (Node.mk dep [])

/-- First loop of `Builder.build_dependency_graph`, one image:
`nodes[image.name] = Node(image.name)` followed by the dependency loop. -/
def addImageNodes (ns : Dict Node) (image : ImageRec) : Dict Node :=
  image.dependencies.foldl depInsert (dinsert ns image.name (Node.mk image.name []))

/-- First loop of `Builder.build_dependency_graph` over all images, starting
from the empty `nodes` dict. -/
def imageNodes (images : List ImageRec) : Dict Node :=
  images.foldl addImageNodes []

/-- `nodes[image.name].add_edge(nodes[dependency])`: both lookups, then the
edge append (`add_edge` is modelled from the spec: it appends one edge to the
ordered edge sequence).  Both keys are always present at the call sites, so
the fallthrough case is unreachable there (Python would raise `KeyError`). -/
def addEdge (ns : Dict Node) (src dep : String) : Dict Node :=
  match dget ns src, dget ns dep with
  | some n, some _ => dinsert ns src (Node.mk n.name (n.edges ++ [dep]))
  | _, _ => ns

/-- Second loop of `Builder.build_dependency_graph`, one image: add one edge
per declared dependency, in declaration order. -/
def addImageEdges (ns : Dict Node) (image : ImageRec) : Dict Node :=
  image.dependencies.foldl (fun d dep => addEdge d image.name dep) ns

/-- Second loop of `Builder.build_dependency_graph` over all images. -/
def wireEdges (ns : Dict Node) (images : List ImageRec) : Dict Node :=
  images.foldl addImageEdges ns

/-- `Builder.build_dependency_graph`, taking `self.images.values()` as its
input: creates one node per image name and per not-yet-present dependency
name, then wires the edges, then calls `Graph.create(list(nodes.values()))`. -/
def Builder.build_dependency_graph (images : List ImageRec) : Graph :=
  Graph.create (dvalues (wireEdges (imageNodes images) images))

/-- The indexing loop of `Builder.index_images`:
`self.images[image.name] = image` for each discovered image record, in
discovery order.  Directory walking and Dockerfile parsing are external; the
discovered records are the input. -/
def indexFold (discovery : List ImageRec) : Dict ImageRec :=
  discovery.foldl (fun d i => dinsert d i.name i) []

/-- `Builder.index_images`: indexes the discovered images and calls
`sys.exit(1)` when `len(self.images) == 0`. -/
def Builder.index_images (discovery : List ImageRec) : Except Nat (Dict ImageRec) :=
  let images := indexFold discovery
  if images.length = 0 then .error 1 else .ok images

/-- The dict comprehension
`images = {image: self.images[image] for image in self.config['images']}`:
evaluated left to right, raising `KeyError` on the first name that is not a
key of `self.images`. -/
def seedDictGo (images : Dict ImageRec) (acc : Dict ImageRec) :
    List String → Except String (Dict ImageRec)
  | [] => .ok acc
  | k :: ks =>
    match dget images k with
    | none => .error k
    | some v => seedDictGo images (dinsert acc k v) ks

/-- The dict comprehension inside `Builder.resolve_dependencies`:
`nodes = {name: self.graph.nodes[name] for name in [image.name for image in images]}`. -/
def graphNodesGo (g : Graph) (acc : Dict Node) :
    List String → Except String (Dict Node)
  | [] => .ok acc
  | k :: ks =>
    match dget g.nodes k with
    | none => .error k
    | some v => graphNodesGo g (dinsert acc k v) ks

/-- The resolution step of `Builder.run`: when `config['images']` is
non-empty, look the seed names up in `self.images`, then look the seed nodes
up in the graph and call `Resolver.resolve_nodes`; otherwise call
`Resolver.resolve`.  The resolver itself (from `builder.dependency`, not
among the embedded sources) is a parameter. -/
def Builder.resolve_step (cfg : Config) (images : Dict ImageRec) (g : Graph)
    (resolveAll : Graph → List Node)
    (resolveNodes : Graph → List Node → Bool → List Node) :
    Except String (List Node) :=
  if cfg.images.length > 0 then
    match seedDictGo images [] cfg.images with
    | .error k => .error k
    | .ok seeds =>
      match graphNodesGo g [] ((dvalues seeds).map ImageRec.name) with
      | .error k => .error k
      | .ok nd => .ok (resolveNodes g (dvalues nd) cfg.downstream)
  else .ok (resolveAll g)

/-- `Builder.pull_remote_images`: runs `docker pull` once per remote
dependency, in order.  The exit status returned by `process.wait()` is
discarded, so a failing pull neither raises nor stops the loop; the runtime
oracle is therefore not consulted here. -/
def Builder.pull_remote_images (remote : List Node) : List Op :=
  remote.map (fun d => Op.pull d.name)

/-- `Builder.build_images`: for each local dependency in order, look the
image up in `self.images` and build it.  Modelled from the spec:
`Image.build` reports failure by raising, which is fatal. -/
def Builder.build_images (images : Dict ImageRec) (rt : Runtime) :
    List Node → List Op × Option Failure
  | [] => ([], none)
  | d :: rest =>
    match dget images d.name with
    | none => ([], some (Failure.keyErr d.name))
    | some _ =>
      if rt.build_ok d.name then
        let r := Builder.build_images images rt rest
        (Op.build d.name :: r.1, r.2)
      else
        ([Op.build d.name], some (Failure.opFail (Op.build d.name)))

/-- Inner loop of `Builder.push_images`: push one local image to every
configured registry, in configuration order.  Modelled from the spec:
`Image.push` reports failure by raising, which is fatal. -/
def Builder.push_one (images : Dict ImageRec) (rt : Runtime) (d : Node) :
    List String → List Op × Option Failure
  | [] => ([], none)
  | reg :: regs =>
    match dget images d.name with
    | none => ([], some (Failure.keyErr d.name))
    | some _ =>
      if rt.push_ok d.name reg then
        let r := Builder.push_one images rt d regs
        (Op.push d.name reg :: r.1, r.2)
      else
        ([Op.push d.name reg], some (Failure.opFail (Op.push d.name reg)))

/-- `Builder.push_images`: outer loop over the local dependencies in
partition order. -/
def Builder.push_images (images : Dict ImageRec) (rt : Runtime) (regs : List String) :
    List Node → List Op × Option Failure
  | [] => ([], none)
  | d :: rest =>
    let r := Builder.push_one images rt d regs
    match r.2 with
    | some f => (r.1, some f)
    | none =>
      let r2 := Builder.push_images images rt regs rest
      (r.1 ++ r2.1, r2.2)

/-- The driving tail of `Builder.run` given the two partitions:
`pull_remote_images()`, then `build_images()`, then, only when
`config['core']['push']` is set, `push_images()`.  A raised failure aborts
the remaining calls. -/
def Builder.drive_parts (cfg : Config) (images : Dict ImageRec) (rt : Runtime)
    (g : Graph) (parts : List Node × List Node) : RunOutcome :=
  let pullTrace := Builder.pull_remote_images parts.2
  let b := Builder.build_images images rt parts.1
  match b.2 with
  | some f => ⟨pullTrace ++ b.1, f.toStatus, some g, parts.1, parts.2⟩
  | none =>
    if cfg.push then
      let p := Builder.push_images images rt cfg.registries parts.1
      match p.2 with
      | some f => ⟨pullTrace ++ b.1 ++ p.1, f.toStatus, some g, parts.1, parts.2⟩
      | none => ⟨pullTrace ++ b.1 ++ p.1, RunStatus.ok, some g, parts.1, parts.2⟩
    else ⟨pullTrace ++ b.1, RunStatus.ok, some g, parts.1, parts.2⟩

/-- `Builder.run`: index, build the graph, resolve (seeded or all), split the
resolved order into the partitions — starting from the empty partitions set
up by `__init__` — and drive the external operations. -/
def Builder.run (cfg : Config) (discovery : List ImageRec) (rt : Runtime)
    (resolveAll : Graph → List Node)
    (resolveNodes : Graph → List Node → Bool → List Node) : RunOutcome :=
  match Builder.index_images discovery with
  | .error c => ⟨[], .exited c, none, [], []⟩
  | .ok images =>
    let g := Builder.build_dependency_graph (dvalues images)
    match Builder.resolve_step cfg images g resolveAll resolveNodes with
    | .error k => ⟨[], .keyError k, some g, [], []⟩
    | .ok order => Builder.drive_parts cfg images rt g (Builder.split_dependencies images ([], []) order)

/-! ### Dictionary lemmas -/

theorem bool_eq_false {b : Bool} (h : ¬ b = true) : b = false := by
  cases b
  · rfl
  · exact absurd rfl h

theorem dcontains_iff {β : Type} (d : Dict β) (k : String) :
    dcontains d k = true ↔ k ∈ dkeys d := by
  induction d with
  | nil => simp [dcontains, dkeys]
  | cons p d ih =>
    by_cases h : p.1 = k
    · simp [dcontains, dkeys, h]
    · have hne : ¬ k = p.1 := fun he => h he.symm
      simp [dcontains, dkeys, h, hne, ih]

theorem dcontains_false_iff {β : Type} (d : Dict β) (k : String) :
    dcontains d k = false ↔ k ∉ dkeys d := by
  constructor
  · intro h hk
    rw [← dcontains_iff] at hk
    rw [h] at hk
    exact Bool.false_ne_true hk
  · intro h
    exact bool_eq_false (fun hc => h ((dcontains_iff d k).mp hc))

theorem dget_mem {β : Type} {d : Dict β} {k : String} {v : β} (h : dget d k = some v) :
    (k, v) ∈ d := by
  induction d with
  | nil => simp [dget] at h
  | cons p d ih =>
    obtain ⟨a, b⟩ := p
    simp only [dget] at h
    by_cases hp : a = k
    · rw [if_pos hp] at h
      have hv : b = v := Option.some.inj h
      subst hp
      subst hv
      exact List.mem_cons_self _ _
    · rw [if_neg hp] at h
      exact List.mem_cons_of_mem _ (ih h)

theorem dget_some_of_dcontains {β : Type} {d : Dict β} {k : String}
    (h : dcontains d k = true) : ∃ v, dget d k = some v := by
  induction d with
  | nil => simp [dcontains] at h
  | cons p d ih =>
    by_cases hp : p.1 = k
    · exact ⟨p.2, by simp [dget, hp]⟩
    · simp only [dcontains, if_neg hp] at h
      obtain ⟨v, hv⟩ := ih h
      exact ⟨v, by simp [dget, hp, hv]⟩

theorem dcontains_of_dget_some {β : Type} {d : Dict β} {k : String} {v : β}
    (h : dget d k = some v) : dcontains d k = true := by
  induction d with
  | nil => simp [dget] at h
  | cons p d ih =>
    by_cases hp : p.1 = k
    · simp [dcontains, hp]
    · simp only [dget, if_neg hp] at h
      simp [dcontains, hp, ih h]

theorem dget_none_of_dcontains_false {β : Type} {d : Dict β} {k : String}
    (h : dcontains d k = false) : dget d k = none := by
  cases hg : dget d k with
  | none => rfl
  | some v => rw [dcontains_of_dget_some hg] at h; exact absurd h (by simp)

theorem dkeys_dreplace {β : Type} (d : Dict β) (k : String) (v : β) :
    dkeys (dreplace d k v) = dkeys d := by
  induction d with
  | nil => rfl
  | cons p d ih =>
    by_cases hp : p.1 = k
    · simp only [dreplace, if_pos hp, dkeys, List.map_cons]
      rw [hp]
      exact congrArg (List.cons k) ih
    · simp only [dreplace, if_neg hp, dkeys, List.map_cons]
      exact congrArg (List.cons p.1) ih

theorem dget_dreplace_self {β : Type} {d : Dict β} {k : String} (v : β)
    (h : dcontains d k = true) : dget (dreplace d k v) k = some v := by
  induction d with
  | nil => simp [dcontains] at h
  | cons p d ih =>
    by_cases hp : p.1 = k
    · simp [dreplace, hp, dget]
    · simp only [dcontains, if_neg hp] at h
      simp [dreplace, hp, dget, ih h]

theorem dget_dreplace_ne {β : Type} {d : Dict β} {k k2 : String} (v : β) (h : k2 ≠ k) :
    dget (dreplace d k v) k2 = dget d k2 := by
  induction d with
  | nil => rfl
  | cons p d ih =>
    by_cases hp : p.1 = k
    · have hk : ¬ (k = k2) := fun he => h he.symm
      have hpk2 : ¬ p.1 = k2 := by rw [hp]; exact hk
      simp only [dreplace, if_pos hp, dget, if_neg hk, if_neg hpk2]
      exact ih
    · by_cases h2 : p.1 = k2
      · simp only [dreplace, if_neg hp, dget, if_pos h2]
      · simp only [dreplace, if_neg hp, dget, if_neg h2]
        exact ih

theorem mem_dreplace {β : Type} {d : Dict β} {k : String} {v : β} {p : String × β}
    (h : p ∈ dreplace d k v) : p = (k, v) ∨ p ∈ d := by
  induction d with
  | nil => simp [dreplace] at h
  | cons q d ih =>
    by_cases hq : q.1 = k
    · simp only [dreplace, if_pos hq] at h
      rcases List.mem_cons.mp h with h1 | h1
      · exact Or.inl h1
      · rcases ih h1 with h2 | h2
        · exact Or.inl h2
        · exact Or.inr (List.mem_cons_of_mem _ h2)
    · simp only [dreplace, if_neg hq] at h
      rcases List.mem_cons.mp h with h1 | h1
      · exact Or.inr (h1 ▸ List.mem_cons_self _ _)
      · rcases ih h1 with h2 | h2
        · exact Or.inl h2
        · exact Or.inr (List.mem_cons_of_mem _ h2)

theorem dkeys_append {β : Type} (d e : Dict β) : dkeys (d ++ e) = dkeys d ++ dkeys e := by
  simp [dkeys]

theorem dcontains_append {β : Type} (d e : Dict β) (k : String) :
    dcontains (d ++ e) k = (dcontains d k || dcontains e k) := by
  induction d with
  | nil => simp [dcontains]
  | cons p d ih =>
    by_cases hp : p.1 = k
    · simp [dcontains, hp]
    · simp [dcontains, hp, ih]

theorem dget_append_of_none {β : Type} {d : Dict β} (e : Dict β) {k : String}
    (h : dget d k = none) : dget (d ++ e) k = dget e k := by
  induction d with
  | nil => rfl
  | cons p d ih =>
    by_cases hp : p.1 = k
    · simp [dget, hp] at h
    · simp only [dget, if_neg hp] at h
      simp [dget, hp, ih h]

theorem dget_append_of_some {β : Type} {d : Dict β} (e : Dict β) {k : String} {v : β}
    (h : dget d k = some v) : dget (d ++ e) k = some v := by
  induction d with
  | nil => simp [dget] at h
  | cons p d ih =>
    by_cases hp : p.1 = k
    · simp only [dget, if_pos hp] at h ⊢
      exact h
    · simp only [dget, if_neg hp] at h ⊢
      exact ih h

theorem dkeys_dinsert_of_contains {β : Type} {d : Dict β} {k : String} (v : β)
    (h : dcontains d k = true) : dkeys (dinsert d k v) = dkeys d := by
  simp [dinsert, h, dkeys_dreplace]

theorem dkeys_dinsert_of_not_contains {β : Type} {d : Dict β} {k : String} (v : β)
    (h : dcontains d k = false) : dkeys (dinsert d k v) = dkeys d ++ [k] := by
  simp [dinsert, h, dkeys_append, dkeys]

theorem dget_dinsert_self {β : Type} (d : Dict β) (k : String) (v : β) :
    dget (dinsert d k v) k = some v := by
  by_cases h : dcontains d k = true
  · simp [dinsert, h, dget_dreplace_self v h]
  · have h2 := bool_eq_false h
    rw [dinsert, h2]
    simp only [Bool.false_eq_true, if_false]
    rw [dget_append_of_none _ (dget_none_of_dcontains_false h2)]
    simp [dget]

theorem dget_dinsert_ne {β : Type} (d : Dict β) {k k2 : String} (v : β) (h : k2 ≠ k) :
    dget (dinsert d k v) k2 = dget d k2 := by
  by_cases hc : dcontains d k = true
  · simp [dinsert, hc, dget_dreplace_ne v h]
  · have h2 := bool_eq_false hc
    rw [dinsert, h2]
    simp only [Bool.false_eq_true, if_false]
    cases hg : dget d k2 with
    | some w => exact dget_append_of_some _ hg
    | none =>
      rw [dget_append_of_none _ hg]
      have hk : ¬ k = k2 := fun he => h he.symm
      simp [dget, hk]

theorem nodup_dkeys_dinsert {β : Type} {d : Dict β} (k : String) (v : β)
    (h : (dkeys d).Nodup) : (dkeys (dinsert d k v)).Nodup := by
  by_cases hc : dcontains d k = true
  · rw [dkeys_dinsert_of_contains v hc]; exact h
  · have h2 := bool_eq_false hc
    rw [dkeys_dinsert_of_not_contains v h2]
    have hk : k ∉ dkeys d := (dcontains_false_iff d k).mp h2
    rw [List.nodup_append_comm]
    exact List.nodup_cons.mpr ⟨hk, h⟩

theorem mem_dinsert {β : Type} {d : Dict β} {k : String} {v : β} {p : String × β}
    (h : p ∈ dinsert d k v) : p = (k, v) ∨ p ∈ d := by
  by_cases hc : dcontains d k = true
  · rw [dinsert, hc] at h
    simp only [if_true] at h
    exact mem_dreplace h
  · rw [dinsert, bool_eq_false hc] at h
    simp only [Bool.false_eq_true, if_false] at h
    rcases List.mem_append.mp h with h1 | h1
    · exact Or.inr h1
    · exact Or.inl (List.mem_singleton.mp h1)

theorem mem_dget_of_nodup {β : Type} {d : Dict β} {p : String × β}
    (hnd : (dkeys d).Nodup) (h : p ∈ d) : dget d p.1 = some p.2 := by
  induction d with
  | nil => simp at h
  | cons q d ih =>
    rcases List.mem_cons.mp h with h1 | h1
    · subst h1
      simp [dget]
    · have hq : q.1 ≠ p.1 := by
        intro he
        have : q.1 ∈ dkeys d := he ▸ List.mem_map_of_mem Prod.fst h1
        exact (List.nodup_cons.mp hnd).1 this
      simp only [dget, if_neg hq]
      exact ih (List.nodup_cons.mp hnd).2 h1

/-- Generic preservation of an invariant along `List.foldl`. -/
theorem foldl_preserve {α σ : Type} {P : σ → Prop} {f : σ → α → σ}
    (hf : ∀ s a, P s → P (f s a)) : ∀ (l : List α) (s : σ), P s → P (l.foldl f s)
  | [], _, h => h
  | a :: l, s, h => foldl_preserve hf l (f s a) (hf s a h)

/-- Generic preservation along `List.foldl`, with membership of the element. -/
theorem foldl_preserve_mem {α σ : Type} {P : σ → Prop} {f : σ → α → σ} :
    ∀ (l : List α) (s : σ), (∀ s2 a, a ∈ l → P s2 → P (f s2 a)) → P s → P (l.foldl f s)
  | [], _, _, h => h
  | a :: l, s, hf, h =>
    foldl_preserve_mem l (f s a)
      (fun s2 b hb => hf s2 b (List.mem_cons_of_mem _ hb))
      (hf s a (List.mem_cons_self _ _) h)

/-! ### Partitioning: `_split_dependencies` -/

theorem pyStrInNodes_eq_false (s : String) (l : List Node) : pyStrInNodes s l = false := by
  induction l with
  | nil => rfl
  | cons n t ih =>
    simp only [pyStrInNodes, List.any_cons, pyEqStrNode, Bool.false_or]
    exact ih

/-- The loop body, with the always-false string-vs-Node membership tests
reduced away: every node is appended, to local when its name is an image
key and to remote otherwise. -/
theorem splitStep_eq (images : Dict ImageRec) (acc : List Node × List Node) (dep : Node) :
    splitStep images acc dep =
      if dcontains images dep.name then (acc.1 ++ [dep], acc.2)
      else (acc.1, acc.2 ++ [dep]) := by
  rw [splitStep, pyStrInNodes_eq_false, pyStrInNodes_eq_false]
  cases h : dcontains images dep.name <;> simp [h]

theorem split_dependencies_acc (images : Dict ImageRec) :
    ∀ (deps : List Node) (l r : List Node),
      Builder.split_dependencies images (l, r) deps =
        (l ++ deps.filter (fun d => dcontains images d.name),
         r ++ deps.filter (fun d => !(dcontains images d.name))) := by
  intro deps
  induction deps with
  | nil => intro l r; simp [Builder.split_dependencies]
  | cons d t ih =>
    intro l r
    simp only [Builder.split_dependencies, List.foldl_cons] at ih ⊢
    rw [splitStep_eq]
    by_cases h : dcontains images d.name = true
    · rw [if_pos h, ih (l ++ [d]) r]
      simp [List.filter_cons, h]
    · have h2 := bool_eq_false h
      rw [if_neg h, ih l (r ++ [d])]
      simp [List.filter_cons, h2]

/-- C1: for every resolved node sequence passed to `_split_dependencies`
starting from empty partitions, each node is appended to exactly one of the
two partitions — to `local_dependencies` when its name is a key of
`self.images`, to `remote_dependencies` otherwise — and each partition keeps
the relative order of the input sequence (filter characterisation). -/
theorem split_dependencies_partition (images : Dict ImageRec) (deps : List Node) :
    Builder.split_dependencies images ([], []) deps =
      (deps.filter (fun d => dcontains images d.name),
       deps.filter (fun d => !(dcontains images d.name))) := by
  rw [split_dependencies_acc]
  simp

/-- C3: duplicate suppression never fires.  The membership checks compare
`dependency.name` (a `str`) against lists of `Node` objects, which is always
`False` in Python, so a resolved sequence containing the discovered name
`app` twice puts the name at two distinct positions of the local partition —
the code contradicts the intended name-based duplicate suppression. -/
theorem split_dependencies_duplicate_not_suppressed :
    (Builder.split_dependencies [("app", ImageRec.mk "app" [])] ([], [])
        [Node.mk "app" [], Node.mk "app" []]).1.map Node.name = ["app", "app"] := by
  rfl

/-- C9: the partition output is a function of `self.images`, the accumulated
partition fields and the resolved input sequence only: two builder states
agreeing on those (even with different configs or graphs) produce identical
local and remote partitions. -/
theorem split_dependencies_deterministic (b1 b2 : Builder) (deps : List Node)
    (h1 : b1.images = b2.images)
    (h2 : b1.local_dependencies = b2.local_dependencies)
    (h3 : b1.remote_dependencies = b2.remote_dependencies) :
    (b1.split_state deps).local_dependencies = (b2.split_state deps).local_dependencies ∧
      (b1.split_state deps).remote_dependencies = (b2.split_state deps).remote_dependencies := by
  simp [Builder.split_state, h1, h2, h3]

theorem split_dependencies_deterministic_witness :
    ((Builder.split_state
        ⟨⟨[], false, false, []⟩, [("app", ImageRec.mk "app" [])], none, [], []⟩
        [Node.mk "app" [], Node.mk "base" []]).local_dependencies =
      (Builder.split_state
        ⟨⟨["x"], true, true, ["registry"]⟩, [("app", ImageRec.mk "app" [])],
          some ⟨[]⟩, [], []⟩
        [Node.mk "app" [], Node.mk "base" []]).local_dependencies) ∧
      ((Builder.split_state
        ⟨⟨[], false, false, []⟩, [("app", ImageRec.mk "app" [])], none, [], []⟩
        [Node.mk "app" [], Node.mk "base" []]).remote_dependencies =
      (Builder.split_state
        ⟨⟨["x"], true, true, ["registry"]⟩, [("app", ImageRec.mk "app" [])],
          some ⟨[]⟩, [], []⟩
        [Node.mk "app" [], Node.mk "base" []]).remote_dependencies) :=
  split_dependencies_deterministic _ _ _ rfl rfl rfl

/-- C10 (amended): the partition fields are never cleared between resolution
calls — `_split_dependencies` appends to whatever earlier calls accumulated,
so a second resolution extends the partitions of the first rather than
replacing them; the duplicate check compares names against `Node` objects
and never matches, so the appended nodes are not checked against the
earlier entries. -/
theorem split_state_extends (b : Builder) (deps : List Node) :
    (b.split_state deps).local_dependencies =
        b.local_dependencies ++ deps.filter (fun d => dcontains b.images d.name) ∧
      (b.split_state deps).remote_dependencies =
        b.remote_dependencies ++ deps.filter (fun d => !(dcontains b.images d.name)) := by
  simp only [Builder.split_state]
  rw [split_dependencies_acc]
  exact ⟨rfl, rfl⟩

/-- C10 counterexample: a second `_split_dependencies` call passing a node
whose name is already in the local partition appends it again — the second
resolution is not duplicate-checked against the first, refuting that part of
the claim. -/
theorem split_state_second_call_duplicates :
    (Builder.split_state
        ⟨⟨[], false, false, []⟩, [("app", ImageRec.mk "app" [])], none,
          [Node.mk "app" []], []⟩
        [Node.mk "app" []]).local_dependencies
      = [Node.mk "app" [], Node.mk "app" []] := by
  rfl

/-! ### Graph construction: `build_dependency_graph` -/

theorem dcontains_congr {β β2 : Type} {d : Dict β} {d2 : Dict β2}
    (h : dkeys d2 = dkeys d) (e : String) : dcontains d2 e = dcontains d e := by
  cases hc : dcontains d e with
  | true => exact (dcontains_iff _ _).mpr (h ▸ (dcontains_iff _ _).mp hc)
  | false =>
    refine bool_eq_false fun ht => ?_
    have h2 := (dcontains_iff _ _).mp ht
    rw [h] at h2
    have h3 := (dcontains_iff _ _).mpr h2
    rw [h3] at hc
    exact Bool.noConfusion hc

theorem mem_dkeys_depInsert (d : Dict Node) (dep k : String) :
    k ∈ dkeys (depInsert d dep) ↔ k ∈ dkeys d ∨ k = dep := by
  unfold depInsert
  by_cases h : dcontains d dep = true
  · rw [if_pos h]
    constructor
    · exact Or.inl
    · rintro (h1 | rfl)
      · exact h1
      · exact (dcontains_iff d k).mp h
  · rw [if_neg h, dkeys_dinsert_of_not_contains _ (bool_eq_false h)]
    simp [List.mem_append]

theorem mem_dkeys_depInsert_foldl :
    ∀ (deps : List String) (d : Dict Node) (k : String),
      k ∈ dkeys (deps.foldl depInsert d) ↔ k ∈ dkeys d ∨ k ∈ deps := by
  intro deps
  induction deps with
  | nil => intro d k; simp
  | cons dep t ih =>
    intro d k
    simp only [List.foldl_cons]
    rw [ih, mem_dkeys_depInsert]
    simp only [List.mem_cons]
    tauto

theorem mem_dkeys_addImageNodes (d : Dict Node) (i : ImageRec) (k : String) :
    k ∈ dkeys (addImageNodes d i) ↔ k ∈ dkeys d ∨ k = i.name ∨ k ∈ i.dependencies := by
  unfold addImageNodes
  rw [mem_dkeys_depInsert_foldl]
  by_cases h : dcontains d i.name = true
  · rw [dkeys_dinsert_of_contains _ h]
    constructor
    · rintro (h1 | h1)
      · exact Or.inl h1
      · exact Or.inr (Or.inr h1)
    · rintro (h1 | h1 | h1)
      · exact Or.inl h1
      · exact Or.inl (h1 ▸ (dcontains_iff d i.name).mp h)
      · exact Or.inr h1
  · rw [dkeys_dinsert_of_not_contains _ (bool_eq_false h)]
    simp only [List.mem_append, List.mem_singleton]
    tauto

theorem mem_dkeys_imageNodes_foldl :
    ∀ (images : List ImageRec) (d : Dict Node) (k : String),
      k ∈ dkeys (images.foldl addImageNodes d) ↔
        k ∈ dkeys d ∨ ∃ i ∈ images, k = i.name ∨ k ∈ i.dependencies := by
  intro images
  induction images with
  | nil => intro d k; simp
  | cons i t ih =>
    intro d k
    simp only [List.foldl_cons]
    rw [ih, mem_dkeys_addImageNodes]
    simp only [List.mem_cons]
    constructor
    · rintro ((h1 | h1 | h1) | ⟨j, hj, h2⟩)
      · exact Or.inl h1
      · exact Or.inr ⟨i, Or.inl rfl, Or.inl h1⟩
      · exact Or.inr ⟨i, Or.inl rfl, Or.inr h1⟩
      · exact Or.inr ⟨j, Or.inr hj, h2⟩
    · rintro (h1 | ⟨j, (rfl | hj), h2⟩)
      · exact Or.inl (Or.inl h1)
      · rcases h2 with h2 | h2
        · exact Or.inl (Or.inr (Or.inl h2))
        · exact Or.inl (Or.inr (Or.inr h2))
      · exact Or.inr ⟨j, hj, h2⟩

theorem mem_dkeys_imageNodes (images : List ImageRec) (k : String) :
    k ∈ dkeys (imageNodes images) ↔ ∃ i ∈ images, k = i.name ∨ k ∈ i.dependencies := by
  unfold imageNodes
  rw [mem_dkeys_imageNodes_foldl]
  simp [dkeys]

theorem nodup_dkeys_depInsert (d : Dict Node) (dep : String)
    (h : (dkeys d).Nodup) : (dkeys (depInsert d dep)).Nodup := by
  unfold depInsert
  by_cases hc : dcontains d dep = true
  · rw [if_pos hc]; exact h
  · rw [if_neg hc]; exact nodup_dkeys_dinsert _ _ h

theorem nodup_dkeys_imageNodes (images : List ImageRec) :
    (dkeys (imageNodes images)).Nodup := by
  unfold imageNodes
  have hbase : (dkeys ([] : Dict Node)).Nodup := by simp [dkeys]
  refine foldl_preserve (P := fun d => (dkeys d).Nodup) ?_ images [] hbase
  intro d i h
  unfold addImageNodes
  refine foldl_preserve (P := fun d => (dkeys d).Nodup) ?_ i.dependencies _
    (nodup_dkeys_dinsert _ _ h)
  intro d2 dep h2
  exact nodup_dkeys_depInsert d2 dep h2

theorem imageNodes_edgeless (images : List ImageRec) :
    ∀ p ∈ imageNodes images, p.2 = Node.mk p.1 [] := by
  unfold imageNodes
  have hbase : ∀ (p : String × Node), p ∈ ([] : Dict Node) → p.2 = Node.mk p.1 [] := by
    intro p hp
    simp at hp
  refine foldl_preserve (P := fun (d : Dict Node) => ∀ p ∈ d, p.2 = Node.mk p.1 [])
    ?_ images [] hbase
  intro d i h
  unfold addImageNodes
  refine foldl_preserve (P := fun (d : Dict Node) => ∀ p ∈ d, p.2 = Node.mk p.1 [])
    ?_ i.dependencies _ ?_
  · intro d2 dep h2
    unfold depInsert
    by_cases hc : dcontains d2 dep = true
    · rw [if_pos hc]; exact h2
    · rw [if_neg hc]
      intro p hp
      rcases mem_dinsert hp with rfl | hp2
      · rfl
      · exact h2 p hp2
  · intro p hp
    rcases mem_dinsert hp with rfl | hp2
    · rfl
    · exact h p hp2

theorem dkeys_addEdge (d : Dict Node) (s dep : String) :
    dkeys (addEdge d s dep) = dkeys d := by
  unfold addEdge
  cases hs : dget d s with
  | none => cases dget d dep <;> rfl
  | some n =>
    cases hd : dget d dep with
    | none => rfl
    | some m => exact dkeys_dinsert_of_contains _ (dcontains_of_dget_some hs)

theorem dkeys_addEdge_foldl :
    ∀ (deps : List String) (d : Dict Node) (s : String),
      dkeys (deps.foldl (fun x dp => addEdge x s dp) d) = dkeys d := by
  intro deps
  induction deps with
  | nil => intro d s; rfl
  | cons dp t ih =>
    intro d s
    simp only [List.foldl_cons]
    rw [ih, dkeys_addEdge]

theorem dkeys_addImageEdges (d : Dict Node) (i : ImageRec) :
    dkeys (addImageEdges d i) = dkeys d :=
  dkeys_addEdge_foldl i.dependencies d i.name

theorem dkeys_wireEdges :
    ∀ (images : List ImageRec) (d : Dict Node), dkeys (wireEdges d images) = dkeys d
  | [], _ => rfl
  | i :: t, d => by
    show dkeys (wireEdges (addImageEdges d i) t) = dkeys d
    rw [dkeys_wireEdges t, dkeys_addImageEdges]

theorem dget_addEdge_ne (d : Dict Node) {s : String} (dep : String) {k : String} (h : k ≠ s) :
    dget (addEdge d s dep) k = dget d k := by
  unfold addEdge
  cases hs : dget d s with
  | none => cases dget d dep <;> rfl
  | some n =>
    cases hd : dget d dep with
    | none => rfl
    | some m => exact dget_dinsert_ne _ _ h

theorem dget_addEdge_foldl_ne :
    ∀ (deps : List String) (d : Dict Node) {s k : String}, k ≠ s →
      dget (deps.foldl (fun x dp => addEdge x s dp) d) k = dget d k := by
  intro deps
  induction deps with
  | nil => intro d s k _; rfl
  | cons dp t ih =>
    intro d s k h
    simp only [List.foldl_cons]
    rw [ih _ h, dget_addEdge_ne _ _ h]

theorem dget_addImageEdges_ne (d : Dict Node) (i : ImageRec) {k : String} (h : k ≠ i.name) :
    dget (addImageEdges d i) k = dget d k :=
  dget_addEdge_foldl_ne i.dependencies d h

theorem dget_wireEdges_ne :
    ∀ (images : List ImageRec) (d : Dict Node) {k : String},
      (∀ i ∈ images, k ≠ i.name) →
      dget (wireEdges d images) k = dget d k
  | [], _, _, _ => rfl
  | i :: t, d, k, h => by
    show dget (wireEdges (addImageEdges d i) t) k = dget d k
    rw [dget_wireEdges_ne t _ (fun j hj => h j (List.mem_cons_of_mem _ hj)),
      dget_addImageEdges_ne _ _ (h i (List.mem_cons_self _ _))]

theorem edgesClosed_addEdge (d : Dict Node) (s dep : String)
    (h : ∀ p ∈ d, ∀ e ∈ p.2.edges, dcontains d e = true) :
    ∀ p ∈ addEdge d s dep, ∀ e ∈ p.2.edges, dcontains (addEdge d s dep) e = true := by
  have hcont := dcontains_congr (dkeys_addEdge d s dep)
  intro p hp e he
  rw [hcont]
  revert he
  revert hp
  unfold addEdge
  cases hs : dget d s with
  | none =>
    cases hd : dget d dep with
    | none => intro hp he; exact h p hp e he
    | some m => intro hp he; exact h p hp e he
  | some n =>
    cases hd : dget d dep with
    | none => intro hp he; exact h p hp e he
    | some m =>
      intro hp he
      rcases mem_dinsert hp with rfl | hp2
      · rcases List.mem_append.mp he with h1 | h1
        · exact h (s, n) (dget_mem hs) e h1
        · rw [List.mem_singleton.mp h1]
          exact dcontains_of_dget_some hd
      · exact h p hp2 e he

theorem edgesClosed_addEdge_foldl :
    ∀ (deps : List String) (d : Dict Node) (s : String),
      (∀ p ∈ d, ∀ e ∈ p.2.edges, dcontains d e = true) →
      ∀ p ∈ deps.foldl (fun x dp => addEdge x s dp) d, ∀ e ∈ p.2.edges,
        dcontains (deps.foldl (fun x dp => addEdge x s dp) d) e = true := by
  intro deps
  induction deps with
  | nil => intro d s h; exact h
  | cons dp t ih =>
    intro d s h
    simp only [List.foldl_cons]
    exact ih _ s (edgesClosed_addEdge d s dp h)

theorem edgesClosed_wireEdges :
    ∀ (images : List ImageRec) (d : Dict Node),
      (∀ p ∈ d, ∀ e ∈ p.2.edges, dcontains d e = true) →
      ∀ p ∈ wireEdges d images, ∀ e ∈ p.2.edges, dcontains (wireEdges d images) e = true
  | [], _, h => h
  | i :: t, d, h =>
    edgesClosed_wireEdges t (addImageEdges d i)
      (edgesClosed_addEdge_foldl i.dependencies d i.name h)

theorem coh_addEdge (d : Dict Node) (s dep : String)
    (h : ∀ p ∈ d, p.2.name = p.1) :
    ∀ p ∈ addEdge d s dep, p.2.name = p.1 := by
  unfold addEdge
  cases hs : dget d s with
  | none => cases dget d dep <;> exact h
  | some n =>
    cases hd : dget d dep with
    | none => exact h
    | some m =>
      intro p hp
      rcases mem_dinsert hp with rfl | hp2
      · exact h (s, n) (dget_mem hs)
      · exact h p hp2

theorem coh_addEdge_foldl :
    ∀ (deps : List String) (d : Dict Node) (s : String),
      (∀ p ∈ d, p.2.name = p.1) →
      ∀ p ∈ deps.foldl (fun x dp => addEdge x s dp) d, p.2.name = p.1 := by
  intro deps
  induction deps with
  | nil => intro d s h; exact h
  | cons dp t ih =>
    intro d s h
    simp only [List.foldl_cons]
    exact ih _ s (coh_addEdge d s dp h)

theorem coh_wireEdges :
    ∀ (images : List ImageRec) (d : Dict Node),
      (∀ p ∈ d, p.2.name = p.1) →
      ∀ p ∈ wireEdges d images, p.2.name = p.1
  | [], _, h => h
  | i :: t, d, h =>
    coh_wireEdges t (addImageEdges d i) (coh_addEdge_foldl i.dependencies d i.name h)

theorem coh_imageNodes (images : List ImageRec) :
    ∀ p ∈ imageNodes images, p.2.name = p.1 := by
  intro p hp
  rw [imageNodes_edgeless images p hp]

theorem edgesClosed_imageNodes (images : List ImageRec) :
    ∀ p ∈ imageNodes images, ∀ e ∈ p.2.edges, dcontains (imageNodes images) e = true := by
  intro p hp e he
  rw [imageNodes_edgeless images p hp] at he
  simp at he

theorem create_fold_append :
    ∀ (ns : List Node) (acc : Dict Node),
      (∀ n ∈ ns, dcontains acc n.name = false) →
      (ns.map Node.name).Nodup →
      ns.foldl (fun d n => dinsert d n.name n) acc = acc ++ ns.map (fun n => (n.name, n)) := by
  intro ns
  induction ns with
  | nil => intro acc _ _; simp
  | cons n t ih =>
    intro acc h1 h2
    simp only [List.foldl_cons]
    have hn : dcontains acc n.name = false := h1 n (List.mem_cons_self _ _)
    have hins : dinsert acc n.name n = acc ++ [(n.name, n)] := by
      unfold dinsert
      rw [hn]
      simp
    have hmem : ∀ m ∈ t, dcontains (acc ++ [(n.name, n)]) m.name = false := by
      intro m hm
      rw [dcontains_append]
      have hm1 : dcontains acc m.name = false := h1 m (List.mem_cons_of_mem _ hm)
      have hne : ¬ n.name = m.name := by
        intro he
        have hmm : m.name ∈ t.map Node.name := List.mem_map_of_mem Node.name hm
        rw [← he] at hmm
        exact (List.nodup_cons.mp h2).1 hmm
      have hm2 : dcontains [(n.name, n)] m.name = false := by
        simp [dcontains, hne]
      rw [hm1, hm2]
      rfl
    rw [hins, ih (acc ++ [(n.name, n)]) hmem (List.nodup_cons.mp h2).2]
    simp

theorem graph_create_dvalues (d : Dict Node)
    (hnd : (dkeys d).Nodup) (hcoh : ∀ p ∈ d, p.2.name = p.1) :
    Graph.create (dvalues d) = ⟨d⟩ := by
  unfold Graph.create
  have hnames : (dvalues d).map Node.name = dkeys d := by
    unfold dvalues dkeys
    rw [List.map_map]
    exact List.map_congr_left (fun p hp => hcoh p hp)
  have hc : ∀ n ∈ dvalues d, dcontains ([] : Dict Node) n.name = false := by
    intro n _
    rfl
  rw [create_fold_append (dvalues d) [] hc (hnames ▸ hnd)]
  congr 1
  simp only [List.nil_append]
  unfold dvalues
  rw [List.map_map]
  have hid : ∀ p ∈ d, ((fun n => (n.name, n)) ∘ Prod.snd) p = id p := by
    intro p hp
    simp only [Function.comp_apply, id_eq, hcoh p hp]
  rw [List.map_congr_left hid, List.map_id]

theorem build_dependency_graph_nodes (images : List ImageRec) :
    (Builder.build_dependency_graph images).nodes = wireEdges (imageNodes images) images := by
  unfold Builder.build_dependency_graph
  rw [graph_create_dvalues]
  · rw [dkeys_wireEdges]
    exact nodup_dkeys_imageNodes images
  · exact coh_wireEdges images _ (coh_imageNodes images)

/-- C5: after `build_dependency_graph`, the graph holds exactly one node per
name that is either a discovered image name or a referenced dependency name
(keys characterisation plus no-duplicate keys); a node whose name is not a
discovered image name is edge-less; and every edge target of every node is a
key of the node map (no dangling references). -/
theorem build_dependency_graph_invariants (images : List ImageRec) :
    (∀ k, k ∈ dkeys (Builder.build_dependency_graph images).nodes ↔
        ∃ i ∈ images, k = i.name ∨ k ∈ i.dependencies)
    ∧ (dkeys (Builder.build_dependency_graph images).nodes).Nodup
    ∧ (∀ p ∈ (Builder.build_dependency_graph images).nodes,
        (∀ i ∈ images, p.1 ≠ i.name) → p.2.edges = [])
    ∧ (∀ p ∈ (Builder.build_dependency_graph images).nodes,
        ∀ e ∈ p.2.edges, e ∈ dkeys (Builder.build_dependency_graph images).nodes) := by
  rw [build_dependency_graph_nodes]
  refine ⟨?_, ?_, ?_, ?_⟩
  · intro k
    rw [dkeys_wireEdges]
    exact mem_dkeys_imageNodes images k
  · rw [dkeys_wireEdges]
    exact nodup_dkeys_imageNodes images
  · intro p hp hni
    have hnd : (dkeys (wireEdges (imageNodes images) images)).Nodup := by
      rw [dkeys_wireEdges]
      exact nodup_dkeys_imageNodes images
    have hg : dget (wireEdges (imageNodes images) images) p.1 = some p.2 :=
      mem_dget_of_nodup hnd hp
    rw [dget_wireEdges_ne images _ hni] at hg
    have h2 := imageNodes_edgeless images _ (dget_mem hg)
    rw [h2]
  · intro p hp e he
    exact (dcontains_iff _ _).mp
      (edgesClosed_wireEdges images (imageNodes images) (edgesClosed_imageNodes images) p hp e he)

theorem addImageEdges_get_self :
    ∀ (deps : List String) (d : Dict Node) (s : String) (n : Node),
      dget d s = some n →
      (∀ dep ∈ deps, dcontains d dep = true) →
      dget (deps.foldl (fun x dp => addEdge x s dp) d) s =
        some (Node.mk n.name (n.edges ++ deps)) := by
  intro deps
  induction deps with
  | nil =>
    intro d s n h1 _
    simpa using h1
  | cons dp t ih =>
    intro d s n h1 h2
    simp only [List.foldl_cons]
    have hdp : dcontains d dp = true := h2 dp (List.mem_cons_self _ _)
    obtain ⟨m, hm⟩ := dget_some_of_dcontains hdp
    have hstep : addEdge d s dp = dinsert d s (Node.mk n.name (n.edges ++ [dp])) := by
      unfold addEdge
      rw [h1, hm]
    rw [hstep]
    have h1b : dget (dinsert d s (Node.mk n.name (n.edges ++ [dp]))) s =
        some (Node.mk n.name (n.edges ++ [dp])) := dget_dinsert_self _ _ _
    have h2b : ∀ dep ∈ t,
        dcontains (dinsert d s (Node.mk n.name (n.edges ++ [dp]))) dep = true := by
      intro dep hdep
      have hk : dkeys (dinsert d s (Node.mk n.name (n.edges ++ [dp]))) = dkeys d :=
        dkeys_dinsert_of_contains _ (dcontains_of_dget_some h1)
      rw [dcontains_congr hk]
      exact h2 dep (List.mem_cons_of_mem _ hdep)
    rw [ih _ s _ h1b h2b]
    simp

theorem dget_addImageEdges_self (d : Dict Node) (i : ImageRec) (n : Node)
    (h1 : dget d i.name = some n)
    (h2 : ∀ dep ∈ i.dependencies, dcontains d dep = true) :
    dget (addImageEdges d i) i.name = some (Node.mk n.name (n.edges ++ i.dependencies)) :=
  addImageEdges_get_self i.dependencies d i.name n h1 h2

theorem wireEdges_get_image :
    ∀ (images : List ImageRec) (d : Dict Node) (img : ImageRec),
      (images.map ImageRec.name).Nodup →
      img ∈ images →
      dget d img.name = some (Node.mk img.name []) →
      (∀ i ∈ images, ∀ dep ∈ i.dependencies, dcontains d dep = true) →
      dget (wireEdges d images) img.name = some (Node.mk img.name img.dependencies) := by
  intro images
  induction images with
  | nil =>
    intro d img _ h2 _ _
    simp at h2
  | cons i t ih =>
    intro d img hnd hmem hget hdeps
    show dget (wireEdges (addImageEdges d i) t) img.name =
      some (Node.mk img.name img.dependencies)
    rcases List.mem_cons.mp hmem with rfl | hmem2
    · have hstep : dget (addImageEdges d img) img.name =
          some (Node.mk img.name ([] ++ img.dependencies)) :=
        dget_addImageEdges_self d img _ hget (hdeps img (List.mem_cons_self _ _))
      have hne2 : ∀ j ∈ t, img.name ≠ j.name := by
        intro j hj he
        have hmm : img.name ∈ t.map ImageRec.name := by
          rw [he]
          exact List.mem_map_of_mem ImageRec.name hj
        exact (List.nodup_cons.mp hnd).1 hmm
      rw [dget_wireEdges_ne t _ hne2, hstep]
      simp
    · have hne : img.name ≠ i.name := by
        intro he
        have hmm : img.name ∈ t.map ImageRec.name := List.mem_map_of_mem ImageRec.name hmem2
        rw [he] at hmm
        exact (List.nodup_cons.mp hnd).1 hmm
      have hget2 : dget (addImageEdges d i) img.name = some (Node.mk img.name []) := by
        rw [dget_addImageEdges_ne d i hne]
        exact hget
      have hdeps2 : ∀ j ∈ t, ∀ dep ∈ j.dependencies,
          dcontains (addImageEdges d i) dep = true := by
        intro j hj dep hdep
        rw [dcontains_congr (dkeys_addImageEdges d i)]
        exact hdeps j (List.mem_cons_of_mem _ hj) dep hdep
      exact ih _ img (List.nodup_cons.mp hnd).2 hmem2 hget2 hdeps2

/-- C8: for every discovered image (image names unique, as they come from the
keys of `self.images`), the node stored under the image's name has exactly
the image's declared dependency list as its edge list, in declaration order;
duplicates in the declaration are kept as two edges. -/
theorem build_dependency_graph_image_edges (images : List ImageRec) (img : ImageRec)
    (h1 : (images.map ImageRec.name).Nodup) (h2 : img ∈ images) :
    dget (Builder.build_dependency_graph images).nodes img.name =
      some (Node.mk img.name img.dependencies) := by
  rw [build_dependency_graph_nodes]
  have hkey : img.name ∈ dkeys (imageNodes images) :=
    (mem_dkeys_imageNodes images img.name).mpr ⟨img, h2, Or.inl rfl⟩
  obtain ⟨v, hv⟩ := dget_some_of_dcontains ((dcontains_iff _ _).mpr hkey)
  have hvv : v = Node.mk img.name [] := imageNodes_edgeless images _ (dget_mem hv)
  rw [hvv] at hv
  have hdeps : ∀ i ∈ images, ∀ dep ∈ i.dependencies,
      dcontains (imageNodes images) dep = true := by
    intro i hi dep hdep
    exact (dcontains_iff _ _).mpr ((mem_dkeys_imageNodes images dep).mpr ⟨i, hi, Or.inr hdep⟩)
  exact wireEdges_get_image images _ img h1 h2 hv hdeps

theorem build_dependency_graph_image_edges_witness :
    dget (Builder.build_dependency_graph
        [ImageRec.mk "app" ["base", "base"], ImageRec.mk "lib" []]).nodes "app" =
      some (Node.mk "app" ["base", "base"]) :=
  build_dependency_graph_image_edges
    [ImageRec.mk "app" ["base", "base"], ImageRec.mk "lib" []]
    (ImageRec.mk "app" ["base", "base"]) (by decide) (by decide)

/-! ### Driving the external operations -/

theorem getLast?_cons_of_some {α : Type} (x : α) {l : List α} {o : α}
    (h : l.getLast? = some o) : (x :: l).getLast? = some o := by
  cases l with
  | nil => simp at h
  | cons y t => rw [List.getLast?_cons_cons]; exact h

theorem getLast?_append_of_some {α : Type} (l1 : List α) {l2 : List α} {o : α}
    (h : l2.getLast? = some o) : (l1 ++ l2).getLast? = some o := by
  induction l1 with
  | nil => simpa using h
  | cons x t ih => rw [List.cons_append]; exact getLast?_cons_of_some x ih

theorem toStatus_ne_ok (f : Failure) : f.toStatus ≠ RunStatus.ok := by
  cases f <;> simp [Failure.toStatus]

theorem toStatus_opFailed {f : Failure} {o : Op} (h : f.toStatus = RunStatus.opFailed o) :
    f = Failure.opFail o := by
  cases f with
  | keyErr k => simp [Failure.toStatus] at h
  | opFail o2 =>
    simp [Failure.toStatus] at h
    rw [h]

theorem build_images_ok_trace (images : Dict ImageRec) (rt : Runtime) :
    ∀ (l : List Node) (tr : List Op),
      Builder.build_images images rt l = (tr, none) →
      tr = l.map (fun d => Op.build d.name) := by
  intro l
  induction l with
  | nil =>
    intro tr h
    simp only [Builder.build_images] at h
    injection h with h1 h2
    rw [← h1]
    rfl
  | cons d t ih =>
    intro tr h
    cases hg : dget images d.name with
    | none => simp [Builder.build_images, hg] at h
    | some v =>
      cases hb : rt.build_ok d.name with
      | false => simp [Builder.build_images, hg, hb] at h
      | true =>
        rcases hrec : Builder.build_images images rt t with ⟨tt, te⟩
        simp only [Builder.build_images, hg, hb, hrec, if_true, Prod.mk.injEq] at h
        obtain ⟨h1, h2⟩ := h
        have htt : tt = t.map (fun d => Op.build d.name) := ih tt (by rw [hrec, h2])
        rw [← h1, htt, List.map_cons]

theorem build_images_fail_last (images : Dict ImageRec) (rt : Runtime) :
    ∀ (l : List Node) (tr : List Op) (o : Op),
      Builder.build_images images rt l = (tr, some (Failure.opFail o)) →
      (∃ n, o = Op.build n) ∧ tr.getLast? = some o := by
  intro l
  induction l with
  | nil =>
    intro tr o h
    simp [Builder.build_images] at h
  | cons d t ih =>
    intro tr o h
    cases hg : dget images d.name with
    | none => simp [Builder.build_images, hg] at h
    | some v =>
      cases hb : rt.build_ok d.name with
      | false =>
        have hval : Builder.build_images images rt (d :: t) =
            ([Op.build d.name], some (Failure.opFail (Op.build d.name))) := by
          simp [Builder.build_images, hg, hb]
        rw [hval] at h
        injection h with h1 h2
        have ho : Op.build d.name = o := by
          have h3 := Option.some.inj h2
          injection h3
        rw [← h1, ← ho]
        exact ⟨⟨d.name, rfl⟩, rfl⟩
      | true =>
        rcases hrec : Builder.build_images images rt t with ⟨tt, te⟩
        simp only [Builder.build_images, hg, hb, hrec, if_true, Prod.mk.injEq] at h
        obtain ⟨h1, h2⟩ := h
        obtain ⟨hex, hlast⟩ := ih tt o (by rw [hrec, h2])
        rw [← h1]
        exact ⟨hex, getLast?_cons_of_some _ hlast⟩

theorem push_one_ok_trace (images : Dict ImageRec) (rt : Runtime) (d : Node) :
    ∀ (regs : List String) (tr : List Op),
      Builder.push_one images rt d regs = (tr, none) →
      tr = regs.map (fun reg => Op.push d.name reg) := by
  intro regs
  induction regs with
  | nil =>
    intro tr h
    simp only [Builder.push_one] at h
    injection h with h1 h2
    rw [← h1]
    rfl
  | cons reg t ih =>
    intro tr h
    cases hg : dget images d.name with
    | none => simp [Builder.push_one, hg] at h
    | some v =>
      cases hb : rt.push_ok d.name reg with
      | false => simp [Builder.push_one, hg, hb] at h
      | true =>
        rcases hrec : Builder.push_one images rt d t with ⟨tt, te⟩
        simp only [Builder.push_one, hg, hb, hrec, if_true, Prod.mk.injEq] at h
        obtain ⟨h1, h2⟩ := h
        have htt : tt = t.map (fun reg => Op.push d.name reg) := ih tt (by rw [hrec, h2])
        rw [← h1, htt, List.map_cons]

theorem push_one_fail_last (images : Dict ImageRec) (rt : Runtime) (d : Node) :
    ∀ (regs : List String) (tr : List Op) (o : Op),
      Builder.push_one images rt d regs = (tr, some (Failure.opFail o)) →
      (∃ n reg, o = Op.push n reg) ∧ tr.getLast? = some o := by
  intro regs
  induction regs with
  | nil =>
    intro tr o h
    simp [Builder.push_one] at h
  | cons reg t ih =>
    intro tr o h
    cases hg : dget images d.name with
    | none => simp [Builder.push_one, hg] at h
    | some v =>
      cases hb : rt.push_ok d.name reg with
      | false =>
        have hval : Builder.push_one images rt d (reg :: t) =
            ([Op.push d.name reg], some (Failure.opFail (Op.push d.name reg))) := by
          simp [Builder.push_one, hg, hb]
        rw [hval] at h
        injection h with h1 h2
        have ho : Op.push d.name reg = o := by
          have h3 := Option.some.inj h2
          injection h3
        rw [← h1, ← ho]
        exact ⟨⟨d.name, reg, rfl⟩, rfl⟩
      | true =>
        rcases hrec : Builder.push_one images rt d t with ⟨tt, te⟩
        simp only [Builder.push_one, hg, hb, hrec, if_true, Prod.mk.injEq] at h
        obtain ⟨h1, h2⟩ := h
        obtain ⟨hex, hlast⟩ := ih tt o (by rw [hrec, h2])
        rw [← h1]
        exact ⟨hex, getLast?_cons_of_some _ hlast⟩

theorem push_images_ok_trace (images : Dict ImageRec) (rt : Runtime) (regs : List String) :
    ∀ (l : List Node) (tr : List Op),
      Builder.push_images images rt regs l = (tr, none) →
      tr = l.flatMap (fun d => regs.map (fun reg => Op.push d.name reg)) := by
  intro l
  induction l with
  | nil =>
    intro tr h
    simp only [Builder.push_images] at h
    injection h with h1 h2
    rw [← h1]
    rfl
  | cons d t ih =>
    intro tr h
    rcases hone : Builder.push_one images rt d regs with ⟨pt, pe⟩
    cases pe with
    | some f => simp [Builder.push_images, hone] at h
    | none =>
      rcases hrec : Builder.push_images images rt regs t with ⟨tt, te⟩
      simp only [Builder.push_images, hone, hrec, Prod.mk.injEq] at h
      obtain ⟨h1, h2⟩ := h
      have hpt : pt = regs.map (fun reg => Op.push d.name reg) :=
        push_one_ok_trace images rt d regs pt (by rw [hone])
      have htt : tt = t.flatMap (fun d => regs.map (fun reg => Op.push d.name reg)) :=
        ih tt (by rw [hrec, h2])
      rw [← h1, hpt, htt, List.flatMap_cons]

theorem push_images_fail_last (images : Dict ImageRec) (rt : Runtime) (regs : List String) :
    ∀ (l : List Node) (tr : List Op) (o : Op),
      Builder.push_images images rt regs l = (tr, some (Failure.opFail o)) →
      (∃ n reg, o = Op.push n reg) ∧ tr.getLast? = some o := by
  intro l
  induction l with
  | nil =>
    intro tr o h
    simp [Builder.push_images] at h
  | cons d t ih =>
    intro tr o h
    rcases hone : Builder.push_one images rt d regs with ⟨pt, pe⟩
    cases pe with
    | some f =>
      simp only [Builder.push_images, hone, Prod.mk.injEq] at h
      obtain ⟨h1, h2⟩ := h
      have hf : f = Failure.opFail o := Option.some.inj h2
      obtain ⟨hex, hlast⟩ := push_one_fail_last images rt d regs pt o (by rw [hone, hf])
      rw [← h1]
      exact ⟨hex, hlast⟩
    | none =>
      rcases hrec : Builder.push_images images rt regs t with ⟨tt, te⟩
      simp only [Builder.push_images, hone, hrec, Prod.mk.injEq] at h
      obtain ⟨h1, h2⟩ := h
      obtain ⟨hex, hlast⟩ := ih tt o (by rw [hrec, h2])
      rw [← h1]
      exact ⟨hex, getLast?_append_of_some _ hlast⟩

theorem drive_parts_fields (cfg : Config) (images : Dict ImageRec) (rt : Runtime)
    (g : Graph) (l r : List Node) :
    (Builder.drive_parts cfg images rt g (l, r)).local_dependencies = l ∧
      (Builder.drive_parts cfg images rt g (l, r)).remote_dependencies = r := by
  rcases hb : Builder.build_images images rt l with ⟨bt, be⟩
  cases be with
  | some f => simp [Builder.drive_parts, hb]
  | none =>
    cases hp : cfg.push with
    | false => simp [Builder.drive_parts, hb, hp]
    | true =>
      rcases hq : Builder.push_images images rt cfg.registries l with ⟨pt, pe⟩
      cases pe with
      | some f => simp [Builder.drive_parts, hb, hp, hq]
      | none => simp [Builder.drive_parts, hb, hp, hq]

theorem drive_parts_ok_trace (cfg : Config) (images : Dict ImageRec) (rt : Runtime)
    (g : Graph) (l r : List Node)
    (h : (Builder.drive_parts cfg images rt g (l, r)).status = RunStatus.ok) :
    (Builder.drive_parts cfg images rt g (l, r)).trace =
      r.map (fun d => Op.pull d.name) ++ l.map (fun d => Op.build d.name) ++
        (if cfg.push then
          l.flatMap (fun d => cfg.registries.map (fun reg => Op.push d.name reg))
        else []) := by
  rcases hb : Builder.build_images images rt l with ⟨bt, be⟩
  cases be with
  | some f =>
    simp only [Builder.drive_parts, hb] at h
    exact absurd h (toStatus_ne_ok f)
  | none =>
    have hbt : bt = l.map (fun d => Op.build d.name) :=
      build_images_ok_trace images rt l bt (by rw [hb])
    cases hp : cfg.push with
    | false =>
      simp only [Builder.drive_parts, hb, hp, Builder.pull_remote_images] at h ⊢
      rw [hbt]
      simp
    | true =>
      rcases hq : Builder.push_images images rt cfg.registries l with ⟨pt, pe⟩
      cases pe with
      | some f =>
        simp only [Builder.drive_parts, hb, hp, hq] at h
        exact absurd h (toStatus_ne_ok f)
      | none =>
        have hpt : pt = l.flatMap (fun d => cfg.registries.map (fun reg => Op.push d.name reg)) :=
          push_images_ok_trace images rt cfg.registries l pt (by rw [hq])
        simp only [Builder.drive_parts, hb, hp, hq, Builder.pull_remote_images] at h ⊢
        rw [hbt, hpt]
        simp

theorem drive_parts_fail_last (cfg : Config) (images : Dict ImageRec) (rt : Runtime)
    (g : Graph) (l r : List Node) (o : Op)
    (h : (Builder.drive_parts cfg images rt g (l, r)).status = RunStatus.opFailed o) :
    ((∃ n, o = Op.build n) ∨ (∃ n reg, o = Op.push n reg)) ∧
      (Builder.drive_parts cfg images rt g (l, r)).trace.getLast? = some o := by
  rcases hb : Builder.build_images images rt l with ⟨bt, be⟩
  cases be with
  | some f =>
    simp only [Builder.drive_parts, hb] at h ⊢
    have hf : f = Failure.opFail o := toStatus_opFailed h
    obtain ⟨hex, hlast⟩ := build_images_fail_last images rt l bt o (by rw [hb, hf])
    exact ⟨Or.inl hex, getLast?_append_of_some _ hlast⟩
  | none =>
    cases hp : cfg.push with
    | false =>
      simp only [Builder.drive_parts, hb, hp] at h
      simp at h
    | true =>
      rcases hq : Builder.push_images images rt cfg.registries l with ⟨pt, pe⟩
      cases pe with
      | some f =>
        simp only [Builder.drive_parts, hb, hp, hq] at h ⊢
        have hf : f = Failure.opFail o := toStatus_opFailed h
        obtain ⟨hex, hlast⟩ := push_images_fail_last images rt cfg.registries l pt o
          (by rw [hq, hf])
        exact ⟨Or.inr hex, getLast?_append_of_some _ hlast⟩
      | none =>
        simp only [Builder.drive_parts, hb, hp, hq] at h
        simp at h

/-- C4: on a run that completes successfully, the executed operation sequence
is exactly: one pull per remote-partition name in partition order, then one
build per local-partition name in partition order, then — if and only if the
push option is enabled — one push per local-partition name and configured
registry (locals outer, registries inner, both in order). -/
theorem run_phase_order (cfg : Config) (discovery : List ImageRec) (rt : Runtime)
    (resolveAll : Graph → List Node) (resolveNodes : Graph → List Node → Bool → List Node)
    (h : (Builder.run cfg discovery rt resolveAll resolveNodes).status = RunStatus.ok) :
    (Builder.run cfg discovery rt resolveAll resolveNodes).trace =
      (Builder.run cfg discovery rt resolveAll resolveNodes).remote_dependencies.map
          (fun d => Op.pull d.name) ++
        (Builder.run cfg discovery rt resolveAll resolveNodes).local_dependencies.map
          (fun d => Op.build d.name) ++
        (if cfg.push then
          (Builder.run cfg discovery rt resolveAll resolveNodes).local_dependencies.flatMap
            (fun d => cfg.registries.map (fun reg => Op.push d.name reg))
        else []) := by
  cases hidx : Builder.index_images discovery with
  | error c =>
    simp only [Builder.run, hidx] at h
    simp at h
  | ok images =>
    cases hres : Builder.resolve_step cfg images
        (Builder.build_dependency_graph (dvalues images)) resolveAll resolveNodes with
    | error k =>
      simp only [Builder.run, hidx, hres] at h
      simp at h
    | ok order =>
      simp only [Builder.run, hidx, hres] at h ⊢
      rcases hsp : Builder.split_dependencies images ([], []) order with ⟨l, r⟩
      rw [hsp] at h
      obtain ⟨hl, hr⟩ := drive_parts_fields cfg images rt
        (Builder.build_dependency_graph (dvalues images)) l r
      rw [hl, hr]
      exact drive_parts_ok_trace cfg images rt _ l r h

theorem run_phase_order_witness :
    (Builder.run ⟨[], false, true, ["registry"]⟩ [ImageRec.mk "app" ["base"]]
        (Runtime.mk (fun _ => true) (fun _ => true) (fun _ _ => true))
        (fun _ => [Node.mk "base" [], Node.mk "app" ["base"]])
        (fun _ _ _ => [])).trace =
      (Builder.run ⟨[], false, true, ["registry"]⟩ [ImageRec.mk "app" ["base"]]
          (Runtime.mk (fun _ => true) (fun _ => true) (fun _ _ => true))
          (fun _ => [Node.mk "base" [], Node.mk "app" ["base"]])
          (fun _ _ _ => [])).remote_dependencies.map (fun d => Op.pull d.name) ++
        (Builder.run ⟨[], false, true, ["registry"]⟩ [ImageRec.mk "app" ["base"]]
            (Runtime.mk (fun _ => true) (fun _ => true) (fun _ _ => true))
            (fun _ => [Node.mk "base" [], Node.mk "app" ["base"]])
            (fun _ _ _ => [])).local_dependencies.map (fun d => Op.build d.name) ++
        (if (Config.mk [] false true ["registry"]).push then
          (Builder.run ⟨[], false, true, ["registry"]⟩ [ImageRec.mk "app" ["base"]]
              (Runtime.mk (fun _ => true) (fun _ => true) (fun _ _ => true))
              (fun _ => [Node.mk "base" [], Node.mk "app" ["base"]])
              (fun _ _ _ => [])).local_dependencies.flatMap
            (fun d => (Config.mk [] false true ["registry"]).registries.map
              (fun reg => Op.push d.name reg))
        else []) :=
  run_phase_order ⟨[], false, true, ["registry"]⟩ [ImageRec.mk "app" ["base"]]
    (Runtime.mk (fun _ => true) (fun _ => true) (fun _ _ => true))
    (fun _ => [Node.mk "base" [], Node.mk "app" ["base"]])
    (fun _ _ _ => []) rfl

/-- C2 (amended): a failing build or push is fatal — the run status reports
the failing operation, the failing operation is the last entry of the trace
(nothing executes after it), and the failing operation is always a build or
a push, never a pull: `pull_remote_images` discards the pull exit status, so
a failing pull is not detected and does not halt the run. -/
theorem run_build_push_fail_fast (cfg : Config) (discovery : List ImageRec) (rt : Runtime)
    (resolveAll : Graph → List Node) (resolveNodes : Graph → List Node → Bool → List Node)
    (o : Op)
    (h : (Builder.run cfg discovery rt resolveAll resolveNodes).status = RunStatus.opFailed o) :
    ((∃ n, o = Op.build n) ∨ (∃ n reg, o = Op.push n reg)) ∧
      (Builder.run cfg discovery rt resolveAll resolveNodes).trace.getLast? = some o := by
  cases hidx : Builder.index_images discovery with
  | error c =>
    simp only [Builder.run, hidx] at h
    simp at h
  | ok images =>
    cases hres : Builder.resolve_step cfg images
        (Builder.build_dependency_graph (dvalues images)) resolveAll resolveNodes with
    | error k =>
      simp only [Builder.run, hidx, hres] at h
      simp at h
    | ok order =>
      simp only [Builder.run, hidx, hres] at h ⊢
      rcases hsp : Builder.split_dependencies images ([], []) order with ⟨l, r⟩
      rw [hsp] at h
      exact drive_parts_fail_last cfg images rt _ l r o h

theorem run_build_push_fail_fast_witness :
    ((∃ n, Op.build "app" = Op.build n) ∨ (∃ n reg, Op.build "app" = Op.push n reg)) ∧
      (Builder.run ⟨[], false, false, []⟩ [ImageRec.mk "app" []]
          (Runtime.mk (fun _ => true) (fun _ => false) (fun _ _ => true))
          (fun _ => [Node.mk "app" []]) (fun _ _ _ => [])).trace.getLast? =
        some (Op.build "app") :=
  run_build_push_fail_fast ⟨[], false, false, []⟩ [ImageRec.mk "app" []]
    (Runtime.mk (fun _ => true) (fun _ => false) (fun _ _ => true))
    (fun _ => [Node.mk "app" []]) (fun _ _ _ => []) (Op.build "app") rfl

/-- C2 counterexample: a failing pull is not fatal.  With a runtime whose
pull of `base` fails, the run still completes with status ok and the
subsequent build of `app` is executed — the pull exit status is discarded,
refuting the claim that any failing pull halts the remaining sequence. -/
theorem run_pull_failure_ignored :
    (Runtime.mk (fun _ => false) (fun _ => true) (fun _ _ => true)).pull_ok "base" = false ∧
      (Builder.run ⟨[], false, false, []⟩ [ImageRec.mk "app" ["base"]]
          (Runtime.mk (fun _ => false) (fun _ => true) (fun _ _ => true))
          (fun _ => [Node.mk "base" [], Node.mk "app" ["base"]])
          (fun _ _ _ => [])).status = RunStatus.ok ∧
      (Builder.run ⟨[], false, false, []⟩ [ImageRec.mk "app" ["base"]]
          (Runtime.mk (fun _ => false) (fun _ => true) (fun _ _ => true))
          (fun _ => [Node.mk "base" [], Node.mk "app" ["base"]])
          (fun _ _ _ => [])).trace = [Op.pull "base", Op.build "app"] :=
  ⟨rfl, rfl, rfl⟩

/-- C6: with zero discovered images, `index_images` exits the process with
status 1, and the run performs no external operation, builds no graph and
leaves the partitions empty, for every configuration and resolver. -/
theorem run_empty_discovery (cfg : Config) (rt : Runtime)
    (resolveAll : Graph → List Node)
    (resolveNodes : Graph → List Node → Bool → List Node) :
    Builder.index_images [] = Except.error 1 ∧
      Builder.run cfg [] rt resolveAll resolveNodes =
        ⟨[], RunStatus.exited 1, none, [], []⟩ :=
  ⟨rfl, rfl⟩

theorem seedDictGo_error (images : Dict ImageRec) :
    ∀ (ks : List String), (∃ s ∈ ks, dget images s = none) →
      ∃ k, k ∈ ks ∧ dget images k = none ∧
        ∀ acc, seedDictGo images acc ks = Except.error k := by
  intro ks
  induction ks with
  | nil =>
    rintro ⟨s, hs, _⟩
    simp at hs
  | cons k t ih =>
    rintro ⟨s, hs, hn⟩
    cases hk : dget images k with
    | none =>
      refine ⟨k, List.mem_cons_self _ _, hk, fun acc => ?_⟩
      simp [seedDictGo, hk]
    | some v =>
      have hst : s ∈ t := by
        rcases List.mem_cons.mp hs with rfl | h2
        · rw [hk] at hn
          exact absurd hn (by simp)
        · exact h2
      obtain ⟨k2, hk2m, hk2n, hall⟩ := ih ⟨s, hst, hn⟩
      refine ⟨k2, List.mem_cons_of_mem _ hk2m, hk2n, fun acc => ?_⟩
      simp [seedDictGo, hk, hall]

theorem dinsert_ne_nil {β : Type} (d : Dict β) (k : String) (v : β) : dinsert d k v ≠ [] := by
  unfold dinsert
  by_cases hc : dcontains d k = true
  · rw [if_pos hc]
    cases d with
    | nil => simp [dcontains] at hc
    | cons p t =>
      unfold dreplace
      by_cases hp : p.1 = k
      · simp [hp]
      · simp [hp]
  · rw [if_neg hc]
    simp

theorem indexFold_ne_nil (discovery : List ImageRec) (h : discovery ≠ []) :
    indexFold discovery ≠ [] := by
  cases discovery with
  | nil => exact absurd rfl h
  | cons i t =>
    show List.foldl (fun d j => dinsert d j.name j) (dinsert [] i.name i) t ≠ []
    refine foldl_preserve (P := fun (d : Dict ImageRec) => d ≠ []) ?_ t _
      (dinsert_ne_nil _ _ _)
    intro s a _
    exact dinsert_ne_nil _ _ _

theorem index_images_ok (discovery : List ImageRec) (h : discovery ≠ []) :
    Builder.index_images discovery = Except.ok (indexFold discovery) := by
  unfold Builder.index_images
  have h2 : ¬ (indexFold discovery).length = 0 := by
    intro hl
    exact indexFold_ne_nil discovery h (List.length_eq_zero.mp hl)
  rw [if_neg h2]

/-- C7: when a requested seed name was never discovered, the run fails with a
not-found lookup error (`KeyError` on the first missing seed) raised by the
seed lookup, before the resolver is ever consulted (the outcome is the same
for every resolver), with an empty trace and both partitions left empty. -/
theorem run_missing_seed (cfg : Config) (discovery : List ImageRec) (rt : Runtime)
    (resolveAll : Graph → List Node) (resolveNodes : Graph → List Node → Bool → List Node)
    (s : String) (h1 : s ∈ cfg.images) (h2 : dcontains (indexFold discovery) s = false)
    (h3 : discovery ≠ []) :
    ∃ k, k ∈ cfg.images ∧ dcontains (indexFold discovery) k = false ∧
      Builder.run cfg discovery rt resolveAll resolveNodes =
        ⟨[], RunStatus.keyError k,
          some (Builder.build_dependency_graph (dvalues (indexFold discovery))), [], []⟩ := by
  have hn : dget (indexFold discovery) s = none := dget_none_of_dcontains_false h2
  obtain ⟨k, hkm, hkn, hall⟩ := seedDictGo_error (indexFold discovery) cfg.images ⟨s, h1, hn⟩
  refine ⟨k, hkm, ?_, ?_⟩
  · refine bool_eq_false fun hc => ?_
    obtain ⟨v, hv⟩ := dget_some_of_dcontains hc
    rw [hv] at hkn
    exact Option.noConfusion hkn
  · have hlen : cfg.images.length > 0 := List.length_pos.mpr (List.ne_nil_of_mem h1)
    have hrs : Builder.resolve_step cfg (indexFold discovery)
        (Builder.build_dependency_graph (dvalues (indexFold discovery)))
        resolveAll resolveNodes = Except.error k := by
      unfold Builder.resolve_step
      rw [if_pos hlen, hall []]
    simp only [Builder.run, index_images_ok discovery h3, hrs]

theorem run_missing_seed_witness :
    Builder.run ⟨["ghost"], false, false, []⟩ [ImageRec.mk "app" []]
        (Runtime.mk (fun _ => true) (fun _ => true) (fun _ _ => true))
        (fun _ => []) (fun _ _ _ => []) =
      ⟨[], RunStatus.keyError "ghost",
        some (Builder.build_dependency_graph (dvalues (indexFold [ImageRec.mk "app" []]))),
        [], []⟩ := by
  obtain ⟨k, hk, hc, he⟩ := run_missing_seed ⟨["ghost"], false, false, []⟩
    [ImageRec.mk "app" []] (Runtime.mk (fun _ => true) (fun _ => true) (fun _ _ => true))
    (fun _ => []) (fun _ _ _ => []) "ghost" (by simp) rfl (by simp)
  have hkg : k = "ghost" := by simpa using hk
  rw [hkg] at he
  exact he

end DockerBuilder
